import Mathlib

/-!
Verification of the crater-report analysis tool (src/main.rs) against its
specification. The Rust code is shallowly embedded: Rust `String` contents
(log texts, path fragments) are modelled as `List Char`, map-like containers
(`BTreeMap`) as key-sorted association lists, fallible operations as
`Option`/`Except`, and the out-of-order completion of the bounded-concurrency
fetch loop as an arbitrary permutation of the work list.
-/

namespace CraterAnalysis

/-! ## Ordering on keys (models the byte-wise `Ord` on Rust `String`
used by `BTreeMap`) -/

/-- Lexicographic strict order on character lists. -/
def lexLt : List Char → List Char → Bool
  | [], [] => false
  | [], _ :: _ => true
  | _ :: _, [] => false
  | a :: s, b :: t => if a < b then true else if b < a then false else lexLt s t

/-! ## Rust string primitives used by the analysis -/

/-- Model of Rust `str::contains` for literal
patterns: `hasSub pat s` is true iff `pat` occurs as a contiguous substring
of `s`. -/
def hasSub (pat : List Char) : List Char → Bool
  | [] => pat.isEmpty
  | c :: rest => pat.isPrefixOf (c :: rest) || hasSub pat rest

/-- Strip one carriage return preceding a line feed, as Rust `str::lines`
does. The argument is the accumulated line in reverse order. -/
def finishLine : List Char → List Char
  | [] => []
  | c :: rest => if c = '\r' then rest.reverse else (c :: rest).reverse

/-- Worker for `rustLines`; `acc` is the current line, reversed. -/
def linesAux : List Char → List Char → List (List Char)
  | [], [] => []
  | [], acc => [acc.reverse]
  | c :: rest, acc =>
    if c = '\n' then finishLine acc :: linesAux rest [] else linesAux rest (c :: acc)

/-- Model of Rust `str::lines`: split at `'\n'`, dropping a `'\r'` that
immediately precedes the `'\n'`; a final line is produced only if nonempty
or if it is terminated by a newline earlier in the string. -/
def rustLines (s : List Char) : List (List Char) := linesAux s []

/-- Raw split at `'\n'` keeping every segment (including a trailing empty
one). The positions where a multi-line-mode `^` anchor can match are exactly
the starts of these segments. -/
def splitNl : List Char → List (List Char)
  | [] => [[]]
  | c :: rest =>
    if c = '\n' then [] :: splitNl rest
    else
      match splitNl rest with
      | [] => [[c]]
      | s :: ss => (c :: s) :: ss

/-- The function `dropLead p s` returns `s` with the leading occurrence of `p` removed,
or `none` when `p` is not a prefix of `s`. -/
def dropLead : List Char → List Char → Option (List Char)
  | [], s => some s
  | _ :: _, [] => none
  | p :: ps, c :: cs => if p = c then dropLead ps cs else none

/-! ## The error-code regex

The source builds `^\[INFO\] \[stdout\] error\[(E\d+)\]:` in multi-line
mode. Every match of this pattern starts at a line start and cannot span a
newline, so its non-overlapping matches are in bijection with the
newline-separated segments whose text starts with the literal lead,
followed by `E`, one or more digits (`\d` modelled as ASCII digits, the
only ones occurring in the logs) and `]:`. The capture group is the `E`
together with the digits. -/

def errorLead : List Char := ("[INFO] [stdout] error[").data

/-- The capture of the error regex on one line (newline-separated segment),
if the pattern matches there. -/
def lineErrorCapture (seg : List Char) : Option (List Char) :=
  match dropLead errorLead seg with
  | none => none
  | some rest =>
    match rest with
    | 'E' :: rest2 =>
      match rest2.dropWhile Char.isDigit with
      | ']' :: ':' :: _ =>
        if (rest2.takeWhile Char.isDigit).isEmpty then none
        else some ('E' :: rest2.takeWhile Char.isDigit)
      | _ => none
    | _ => none

/-! ## Data model (deserialized manifest and configuration) -/

/-- One AND-fragment signature: all fragments must occur in a single line. -/
structure Target where
  all : List (List Char)
  deriving DecidableEq

/-- The analysis configuration: expected crate outcome, expected run
outcome, and the finding-name table. The Rust `HashMap` is modelled as an
association list in first-insertion order; no result below depends on the
iteration order. -/
structure Config where
  crate_result : String
  run_result : String
  targets : List (String × List Target)
  deriving DecidableEq

/-- One per-configuration run of a crate. -/
structure RunResult where
  res : String
  log : String
  deriving DecidableEq

/-- One crate entry of the manifest. -/
structure CrateResult where
  name : String
  url : Option String
  res : String
  runs : List (Option RunResult)
  deriving DecidableEq

/-- The deserialized `results.json` manifest. -/
structure Results where
  crates : List CrateResult
  deriving DecidableEq

/-! ## Signature matching (the body of the classification loop) -/

/-- Finding-name increments contributed by one physical line through the
literal signature table: one increment per configured name any of whose
signatures has all its fragments on this line. -/
def lineIncrements (cfg : Config) (line : List Char) : List String :=
  cfg.targets.filterMap (fun t =>
    if t.2.any (fun tgt => tgt.all.all (fun pat => hasSub pat line)) then some t.1 else none)

/-- Finding-name increments contributed by one log through the error
regex: one increment per non-overlapping match, named after the capture. -/
def regexIncrements (log : List Char) : List String :=
  (splitNl log).filterMap (fun seg => (lineErrorCapture seg).map (fun c => String.mk c))

/-- All finding-name increments of one fetched log, in the order the
source applies them (literal table line by line, then the regex). -/
def logIncrements (cfg : Config) (log : List Char) : List String :=
  (rustLines log).flatMap (lineIncrements cfg) ++ regexIncrements log

/-! ## The findings map (Rust `BTreeMap<String, usize>`) -/

/-- The update `*findings.entry(k).or_default() += 1` on a key-sorted association
list. -/
def incr (k : String) : List (String × Nat) → List (String × Nat)
  | [] => [(k, 1)]
  | (k', v) :: rest =>
    if lexLt k.data k'.data then (k, 1) :: (k', v) :: rest
    else if k = k' then (k', v + 1) :: rest
    else (k', v) :: incr k rest

/-- Apply a batch of finding-name increments left to right. -/
def applyIncs (incs : List String) (m : List (String × Nat)) : List (String × Nat) :=
  incs.foldl (fun acc k => incr k acc) m

/-- Lookup in the findings map. -/
def findingsLookup (m : List (String × Nat)) (k : String) : Option Nat :=
  (m.find? (fun p => p.1 == k)).map (fun p => p.2)

/-- The count recorded for `k`, zero if absent. -/
def valueAt (m : List (String × Nat)) (k : String) : Nat :=
  (findingsLookup m k).getD 0

/-! ## The classification loop -/

/-- One element of the work list together with its fetch outcome:
crate name, run, and `some log` on fetch success / `none` on fetch
failure. -/
abbrev WorkItem : Type := String × RunResult × Option (List Char)

/-- Mutable aggregation state of `run_analysis`: the findings map and the
unclassified pushes `(crate name, log reference)` in completion order. -/
structure AnalysisState where
  findings : List (String × Nat)
  other : List (String × String)
  deriving DecidableEq

/-- The body of the `while let Some(..) = stream.next()` loop for one
completed item: on fetch success apply all increments and, when there were
none, push the run to the unclassified list; on fetch failure only a
warning is logged and the state is unchanged. -/
def processItem (cfg : Config) (st : AnalysisState) (it : WorkItem) : AnalysisState :=
  match it.2.2 with
  | none => st
  | some log =>
    let incs := logIncrements cfg log
    { findings := applyIncs incs st.findings
      other := if incs.isEmpty then st.other ++ [(it.1, it.2.1.log)] else st.other }

/-- Fold the loop body over the completed items in completion order. -/
def processItems (cfg : Config) (items : List WorkItem) : AnalysisState :=
  items.foldl (processItem cfg) { findings := [], other := [] }

/-- The increments an item contributes to the findings map: all of its
log's increments on fetch success, none on fetch failure. -/
def itemIncs (cfg : Config) (it : WorkItem) : List String :=
  match it.2.2 with
  | some log => logIncrements cfg log
  | none => []

/-- The unclassified entry an item contributes: `(crate name, log ref)`
exactly when the log was fetched and produced no increment. -/
def unclassifiedOf (cfg : Config) (it : WorkItem) : Option (String × String) :=
  match it.2.2 with
  | some log => if (logIncrements cfg log).isEmpty then some (it.1, it.2.1.log) else none
  | none => none

/-- Number of items whose log fetch succeeded. -/
def successCount (items : List WorkItem) : Nat :=
  items.countP (fun it => it.2.2.isSome)

/-- Number of items whose log fetch succeeded and whose log produced at
least one finding increment. -/
def withFindingCount (cfg : Config) (items : List WorkItem) : Nat :=
  items.countP (fun it =>
    match it.2.2 with
    | some log => !(logIncrements cfg log).isEmpty
    | none => false)

/-- The filtered, ordered work list of `run_analysis`: runs of crates whose
outcome equals the expected crate outcome, with absent run slots skipped,
keeping only runs whose outcome equals the expected run outcome. -/
def interestingRuns (cfg : Config) (report : Results) : List (String × RunResult) :=
  ((report.crates.filter (fun k => k.res == cfg.crate_result)).flatMap
      (fun k => k.runs.reduceOption.map (fun run => (k.name, run)))).filter
    (fun p => p.2.res == cfg.run_result)

/-- The count accumulated through `.inspect` on the crate filter: one per
crate whose outcome equals the expected crate outcome. -/
def regressedCount (cfg : Config) (report : Results) : Nat :=
  (report.crates.filter (fun k => k.res == cfg.crate_result)).length

/-- The work list annotated with the fetch outcome of each run's log. -/
def workItems (cfg : Config) (report : Results) (fetch : String → Option (List Char)) :
    List WorkItem :=
  (interestingRuns cfg report).map (fun p => (p.1, p.2, fetch p.2.log))

/-! ## Grouping the unclassified pushes (`BTreeMap<String, Vec<String>>`) -/

/-- The update `acc.entry(k).or_default().push(v)` on a key-sorted association list of
lists. -/
def insertAppend (k : String) (v : String) : List (String × List String) → List (String × List String)
  | [] => [(k, [v])]
  | (k', vs) :: rest =>
    if lexLt k.data k'.data then (k, [v]) :: (k', vs) :: rest
    else if k = k' then (k', vs ++ [v]) :: rest
    else (k', vs) :: insertAppend k v rest

/-- The final fold of the unclassified pushes into a map grouped by crate
name. -/
def groupOther (l : List (String × String)) : List (String × List String) :=
  l.foldl (fun acc p => insertAppend p.1 p.2 acc) []

/-- Total number of log references across all unclassified crates. -/
def totalEntries (g : List (String × List String)) : Nat :=
  (g.map (fun p => p.2.length)).sum

/-! ## The analysis report -/

structure AnalysisReport where
  experiment : String
  expected_krate_result : String
  expected_run_result : String
  regressed_count : Nat
  interesting_results_count : Nat
  findings : List (String × Nat)
  other : List (String × List String)

/-- The body of `run_analysis` for a loaded manifest, with the log fetches given as a
function from log reference to outcome, processed in work-list order (any
completion order yields the same findings, see the permutation theorem). -/
def runAnalysisPure (cfg : Config) (experiment : String) (report : Results)
    (fetch : String → Option (List Char)) : AnalysisReport :=
  let st := processItems cfg (workItems cfg report fetch)
  { experiment := experiment
    expected_krate_result := cfg.crate_result
    expected_run_result := cfg.run_result
    regressed_count := regressedCount cfg report
    interesting_results_count := (interestingRuns cfg report).length
    findings := st.findings
    other := groupOther st.other }

/-! ## Log cache path derivation (`get_log`) -/

/-- Whether the string contains the two-character sequence `./`. -/
def hasDotSlash : List Char → Bool
  | '.' :: '/' :: _ => true
  | _ :: rest => hasDotSlash rest
  | [] => false

/-- One pass of `str::replace("./", "/dot/")`: every non-overlapping
occurrence, left to right. -/
def replaceDotSlash : List Char → List Char
  | '.' :: '/' :: rest => '/' :: 'd' :: 'o' :: 't' :: '/' :: replaceDotSlash rest
  | c :: rest => c :: replaceDotSlash rest
  | [] => []

/-- The `while current.contains("./")` loop. Each pass replaces at least
one `./` with `/dot/`, strictly decreasing the number of `'.'` characters,
so `s.length` passes of fuel always reach the loop's exit condition. -/
def sanitizeLoop : Nat → List Char → List Char
  | 0, s => s
  | Nat.succ n, s => if hasDotSlash s then sanitizeLoop n (replaceDotSlash s) else s

/-- Model of `strip_suffix(".")`. -/
def stripDotSuffix (s : List Char) : Option (List Char) :=
  match s.reverse with
  | '.' :: rest => some rest.reverse
  | _ => none

/-- Model of `trim_end_matches('/')`. -/
def trimEndSlashes (s : List Char) : List Char :=
  (s.reverse.dropWhile (fun c => c = '/')).reverse

/-- The cache folder computed by `get_log` for a log reference: the raw
`./results/{experiment}/logs/{log}` path, rewritten only when it ends with
`'.'`, in which case the trailing dot becomes a `/dot` component and every
`./` left in the whole path is rewritten to `/dot/`. -/
def getLogFolder (experiment : String) (log : String) : List Char :=
  let folder := ("./results/" ++ experiment ++ "/logs/" ++ log).data
  match stripDotSuffix folder with
  | some pre =>
    let current := pre ++ ("/dot").data
    trimEndSlashes (sanitizeLoop current.length current)
  | none => folder

/-- The cache file path `{folder}/log.txt` used by `get_log`. -/
def getLogPath (experiment : String) (log : String) : List Char :=
  getLogFolder experiment log ++ ("/log.txt").data

/-! ## Content fetcher (`get_or_download_file`)

The two I/O effects are inputs: the outcome of the cache read and the
outcome of the network GET. The returned flag records whether the network
was contacted. The persistence outcome `persistOk` models whether
`tokio::fs::write` succeeds after a download; the source only logs a
warning on its failure. -/

def getOrDownloadFile (cacheRead : Except Unit (List Char)) (network : Except Unit (List Char))
    (persistOk : Bool) : Except Unit (List Char) × Bool :=
  match cacheRead with
  | Except.ok content => (Except.ok content, false)
  | Except.error _ =>
    match network with
    | Except.ok body => (Except.ok body, true)
    | Except.error e => (Except.error e, true)

/-! ## Configuration loading (`main`) -/

/-- The built-in `EXAMPLE_TARGETS` table of `Config::example()`. -/
def exampleTable : List (String × List String) := [
  ("docker", ["[INFO] [stderr] Error response from daemon:", ": no such file or directory"]),
  ("docker", ["[INFO] [stderr] Error response from daemon:", ": file exists"]),
  ("compile_error!", ["compile_error!"]),
  ("missing-env-var", ["note: this error originates in the macro `env`"]),
  ("delimiter missmatch", ["error: mismatched closing delimiter:"]),
  ("no-space", ["no space left on device"]),
  ("linker-bus-error", ["collect2: fatal error: ld terminated with signal 7 [Bus error]"]),
  ("useless-conversion", ["error: this conversion is useless"]),
  ("build-script", ["[INFO] [stderr] error: failed to run custom build command for"]),
  ("download", ["[INFO] [stderr] error: failed to download"]),
  ("linker-undefined-symbol", ["rust-lld: error: undefined symbol:"]),
  ("linker-missing-library", ["rust-lld: error: unable to find library"]),
  ("linker-write-output", ["rust-lld: error: failed to write output", "No such file or directory"]),
  ("include_str-missing-file", ["note: this error originates in the macro `include_str`"]),
  ("include_bytes-missing-file", ["note: this error originates in the macro `include_bytes`"]),
  ("ice", ["error: internal compiler error:"]),
  ("task or parent failed (no space)", ["this task or one of its parent failed: No space left on device"]),
  ("task or parent failed (no space)", ["this task or one of its parent failed: Io Error: No space left on device"]),
  ("task or parent failed (failed to clone)", ["this task or one of its parent failed: failed to clone"]),
  ("invalid manifest", ["error: failed to parse manifest at"]),
  ("invalid manifest", ["error: invalid table header"]),
  ("invalid manifest", ["error: invalid type: ", ", expected "]),
  ("invalid lockfile", ["error: failed to parse lock file at"]),
  ("timeout", ["[ERROR] error running command: no output for 300 seconds"]),
  ("checksum mismatch", ["error: checksum for ", " changed between lock files"]),
  ("links conflict", ["the package ", " links to the native library ", ", but it conflicts with a previous package which links to ", " as well:"]),
  ("links conflict", ["error: Attempting to resolve a dependency with more than one crate with links="]),
  ("version selection failed", ["error: failed to select a version for "]),
  ("missing dep", ["error: no matching package named ", " found"]),
  ("missing dep", ["error: no matching package found"]),
  ("missing dep", ["no matching package for override ", " found"]),
  ("dep removed feature", ["the package ", " depends on ", ", with features: ", " but ", " does not have these features"]),
  ("missing registry", ["registry index was not found in any configuration:"]),
  ("cyclic package dependency", ["error: cyclic package dependency: package ", " depends on itself. Cycle:"]),
  ("cyclic feature dependency", ["error: cyclic feature dependency: feature ", " depends on itself"]),
  ("filename too long", ["error: unable to create ", ": File name too long"]),
  ("invalid UTF-8", ["stream did not contain valid UTF-8"])
]

/-- The update `targets.entry(key).or_default().push(target)` in first-insertion key
order (the source uses a `HashMap`, whose iteration order is arbitrary;
no result depends on it). -/
def pushTarget (k : String) (t : Target) : List (String × List Target) → List (String × List Target)
  | [] => [(k, [t])]
  | (k', ts) :: rest => if k = k' then (k', ts ++ [t]) :: rest else (k', ts) :: pushTarget k t rest

/-- Model of `Config::example()`: the built-in signature table with both expected
outcomes set to `"error"`. -/
def configExample : Config :=
  { crate_result := "error"
    run_result := "error"
    targets := exampleTable.foldl
      (fun acc e => pushTarget e.1 ⟨e.2.map (fun s => s.data)⟩ acc) [] }

/-- Outcome of reading `./analysis-config.toml`. -/
inductive ReadOutcome
  | found (content : String)
  | notFound
  | otherIoError

/-- The error cases of `AnalysisError` relevant to configuration
loading. -/
inductive AnalysisErrKind
  | io
  | tomlDe
  | missingConfig
  deriving DecidableEq

/-- The configuration phase of `main`: on a missing file it writes the
serialized `Config::example()` (second component) and fails with the
distinct `MissingConfig` error; on a present but unparsable file it fails
immediately with the TOML deserialization error and writes nothing; any
other read error is an I/O error. The TOML parser is an oracle
parameter. -/
def mainConfigStep (r : ReadOutcome) (parseToml : String → Option Config) :
    Except AnalysisErrKind Config × Option Config :=
  match r with
  | ReadOutcome.found s =>
    match parseToml s with
    | some c => (Except.ok c, none)
    | none => (Except.error AnalysisErrKind.tomlDe, none)
  | ReadOutcome.notFound => (Except.error AnalysisErrKind.missingConfig, some configExample)
  | ReadOutcome.otherIoError => (Except.error AnalysisErrKind.io, none)

/-! ## Concrete fixtures used by witnesses and counterexamples -/

/-- A one-signature configuration: the `"no-space"` finding with the single
fragment of the built-in table. -/
def cfgNS : Config := ⟨"error", "error", [("no-space", [⟨[("no space left on device").data]⟩])]⟩

/-- A configuration with an empty literal table (only the regex acts). -/
def cfgEmpty : Config := ⟨"error", "error", []⟩

/-- The two-fragment `["A", "B"]` signature under the name `"frag-sig"`. -/
def cfgAB : Config := ⟨"error", "error", [("frag-sig", [⟨[['A'], ['B']]⟩])]⟩

/-- A manifest with one crate `"foo"` (outcome `"error"`) and one run
(outcome `"error"`, log reference `"abc"`). -/
def reportOne : Results := ⟨[⟨"foo", none, "error", [some ⟨"error", "abc"⟩]⟩]⟩

/-- A manifest with two such crates, `"foo"` (log `"abc"`) and `"bar"`
(log `"zzz"`). -/
def reportTwo : Results :=
  ⟨[⟨"foo", none, "error", [some ⟨"error", "abc"⟩]⟩,
    ⟨"bar", none, "error", [some ⟨"error", "zzz"⟩]⟩]⟩

/-- Fetch outcomes for `reportTwo`: log `"abc"` matches the `"no-space"`
signature, log `"zzz"` matches nothing. -/
def fetchTwo : String → Option (List Char) :=
  fun r => if r == "abc" then some (("no space left on device").data)
           else some (("totally unrelated failure").data)

/-- A log in which two distinct regex matches capture the same value. -/
def logTwice : List Char :=
  ("[INFO] [stdout] error[E0308]: one\n[INFO] [stdout] error[E0308]: two").data

/-! # Lemmas

## The lexicographic key order -/

theorem lexLt_irrefl : ∀ s : List Char, lexLt s s = false := by
  intro s
  induction s with
  | nil => rfl
  | cons a t ih => simp [lexLt, ih]

theorem lexLt_asymm : ∀ {s t : List Char}, lexLt s t = true → lexLt t s = false := by
  intro s
  induction s with
  | nil => intro t h; cases t <;> simp_all [lexLt]
  | cons a s' ih =>
    intro t h
    cases t with
    | nil => simp [lexLt] at h
    | cons b t' =>
      rcases lt_trichotomy a b with hab | hab | hab
      · simp [lexLt, hab, lt_asymm hab]
      · subst hab
        simp only [lexLt, lt_irrefl, if_false] at h ⊢
        exact ih h
      · simp [lexLt, hab, lt_asymm hab] at h

theorem lexLt_antisymm : ∀ {s t : List Char}, lexLt s t = false → lexLt t s = false → s = t := by
  intro s
  induction s with
  | nil => intro t h₁ _; cases t <;> simp_all [lexLt]
  | cons a s' ih =>
    intro t h₁ h₂
    cases t with
    | nil => simp [lexLt] at h₂
    | cons b t' =>
      rcases lt_trichotomy a b with hab | hab | hab
      · simp [lexLt, hab] at h₁
      · subst hab
        simp only [lexLt, lt_irrefl, if_false] at h₁ h₂
        exact congrArg (a :: ·) (ih h₁ h₂)
      · simp [lexLt, hab, lt_asymm hab] at h₂

theorem lexLt_trans : ∀ {s t u : List Char},
    lexLt s t = true → lexLt t u = true → lexLt s u = true := by
  intro s
  induction s with
  | nil =>
    intro t u h₁ h₂
    cases t with
    | nil => simp [lexLt] at h₁
    | cons b t' => cases u with
      | nil => simp [lexLt] at h₂
      | cons c u' => rfl
  | cons a s' ih =>
    intro t u h₁ h₂
    cases t with
    | nil => simp [lexLt] at h₁
    | cons b t' =>
      cases u with
      | nil => simp [lexLt] at h₂
      | cons c u' =>
        rcases lt_trichotomy a b with hab | hab | hab
        · rcases lt_trichotomy b c with hbc | hbc | hbc
          · simp [lexLt, lt_trans hab hbc]
          · subst hbc; simp [lexLt, hab]
          · simp [lexLt, hbc, lt_asymm hbc] at h₂
        · subst hab
          simp only [lexLt, lt_irrefl, if_false] at h₁
          rcases lt_trichotomy a c with hac | hac | hac
          · simp [lexLt, hac]
          · subst hac
            simp only [lexLt, lt_irrefl, if_false] at h₂ ⊢
            exact ih h₁ h₂
          · simp [lexLt, hac, lt_asymm hac] at h₂
        · simp [lexLt, hab, lt_asymm hab] at h₁

/-- Keys strictly below in the order are distinct. -/
theorem ne_of_lexLt {s t : List Char} (h : lexLt s t = true) : s ≠ t := by
  intro heq; subst heq; simp [lexLt_irrefl] at h

/-- Totality: two distinct strings are ordered one way or the other. -/
theorem lexLt_of_ne {a b : String} (hne : a ≠ b) (h : lexLt a.data b.data = false) :
    lexLt b.data a.data = true := by
  by_contra hfalse
  exact hne (String.ext (lexLt_antisymm h (by simpa using hfalse)))

/-! ## The findings map: sortedness, lookup, increments -/

/-- Well-formedness of the findings map: keys strictly increasing, as in a
`BTreeMap` walk. -/
def SortedF (m : List (String × Nat)) : Prop :=
  m.Pairwise (fun p q => lexLt p.1.data q.1.data = true)

theorem sortedF_nil : SortedF [] := List.Pairwise.nil

theorem findingsLookup_cons (a : String × Nat) (t : List (String × Nat)) (j : String) :
    findingsLookup (a :: t) j = if a.1 = j then some a.2 else findingsLookup t j := by
  by_cases h : a.1 = j
  · rw [findingsLookup, List.find?_cons_of_pos _ (by simp [h])]
    simp [h]
  · rw [findingsLookup, List.find?_cons_of_neg _ (by simp [h]), if_neg h]
    rfl

theorem valueAt_nil (j : String) : valueAt [] j = 0 := rfl

theorem valueAt_cons (a : String × Nat) (t : List (String × Nat)) (j : String) :
    valueAt (a :: t) j = if a.1 = j then a.2 else valueAt t j := by
  by_cases h : a.1 = j <;> simp [valueAt, findingsLookup_cons, h]

theorem valueAt_eq_zero {m : List (String × Nat)} {j : String}
    (h : ∀ p ∈ m, p.1 ≠ j) : valueAt m j = 0 := by
  have : findingsLookup m j = none := by
    rw [findingsLookup, List.find?_eq_none.mpr (fun x hx => by simp [h x hx])]
    rfl
  simp [valueAt, this]

/-- Keys strictly below in the order are distinct, at the `String` level. -/
theorem key_ne_of_lexLt {a b : String} (h : lexLt a.data b.data = true) : a ≠ b :=
  fun hh => ne_of_lexLt h (by rw [hh])

/-- Unfolding `incr` on a nonempty map. -/
theorem incr_cons (k k' : String) (v : Nat) (rest : List (String × Nat)) :
    incr k ((k', v) :: rest) =
      if lexLt k.data k'.data then (k, 1) :: (k', v) :: rest
      else if k = k' then (k', v + 1) :: rest
      else (k', v) :: incr k rest := rfl

/-- Every key of `incr k m` is `k` or a key of `m`. -/
theorem incr_key_mem (k : String) :
    ∀ (m : List (String × Nat)) (q : String × Nat), q ∈ incr k m →
      q.1 = k ∨ q.1 ∈ m.map Prod.fst := by
  intro m
  induction m with
  | nil => intro q hq; simp [incr] at hq; simp [hq]
  | cons a t ih =>
    intro q hq
    obtain ⟨k', v⟩ := a
    rw [incr_cons] at hq
    by_cases hlt : lexLt k.data k'.data = true
    · rw [if_pos hlt] at hq
      rcases List.mem_cons.mp hq with hq | hq
      · left; rw [hq]
      · right; simpa using List.mem_map_of_mem Prod.fst hq
    · rw [if_neg hlt] at hq
      by_cases heq : k = k'
      · rw [if_pos heq] at hq
        rcases List.mem_cons.mp hq with hq | hq
        · left; rw [hq]; exact heq.symm
        · right; exact List.mem_map_of_mem Prod.fst (List.mem_cons_of_mem _ hq)
      · rw [if_neg heq] at hq
        rcases List.mem_cons.mp hq with hq | hq
        · right; rw [hq]; exact List.mem_map_of_mem Prod.fst (List.mem_cons_self _ _)
        · rcases ih q hq with h | h
          · exact Or.inl h
          · right
            rw [List.map_cons]
            exact List.mem_cons_of_mem _ h

/-- The map update `incr` preserves key-sortedness. -/
theorem incr_sorted (k : String) :
    ∀ {m : List (String × Nat)}, SortedF m → SortedF (incr k m) := by
  intro m
  induction m with
  | nil => intro _; simp [incr, SortedF]
  | cons a t ih =>
    intro hm
    obtain ⟨k', v⟩ := a
    obtain ⟨h1, h2⟩ := List.pairwise_cons.mp hm
    rw [incr_cons]
    by_cases hlt : lexLt k.data k'.data = true
    · rw [if_pos hlt]
      refine List.pairwise_cons.mpr ⟨?_, hm⟩
      intro q hq
      rcases List.mem_cons.mp hq with hq | hq
      · rw [hq]; exact hlt
      · exact lexLt_trans hlt (h1 q hq)
    · rw [if_neg hlt]
      by_cases heq : k = k'
      · rw [if_pos heq]
        exact List.pairwise_cons.mpr ⟨fun q hq => h1 q hq, h2⟩
      · rw [if_neg heq]
        refine List.pairwise_cons.mpr ⟨?_, ih h2⟩
        intro q hq
        rcases incr_key_mem k t q hq with hk | hk
        · rw [hk]
          have : lexLt k'.data k.data = true := lexLt_of_ne heq (by simpa using hlt)
          exact this
        · obtain ⟨p, hp, hpq⟩ := List.mem_map.mp hk
          exact hpq ▸ h1 p hp

/-- In a sorted map whose head key is above `k`, the key `k` is absent. -/
theorem head_lt_absent {k k' : String} {v : Nat} {t : List (String × Nat)}
    (hlt : lexLt k.data k'.data = true)
    (h1 : ∀ q ∈ t, lexLt k'.data q.1.data = true) :
    ∀ p ∈ (k', v) :: t, p.1 ≠ k := by
  intro p hp
  rcases List.mem_cons.mp hp with hp | hp
  · rw [hp]
    exact fun hh => (key_ne_of_lexLt hlt) hh.symm
  · exact fun hh => (key_ne_of_lexLt (lexLt_trans hlt (h1 p hp))) hh.symm

/-- The effect of one increment on the recorded counts. -/
theorem valueAt_incr (k : String) :
    ∀ {m : List (String × Nat)}, SortedF m → ∀ j,
      valueAt (incr k m) j = valueAt m j + (if j = k then 1 else 0) := by
  intro m
  induction m with
  | nil =>
    intro _ j
    by_cases hjk : j = k
    · subst hjk; simp [incr, valueAt_cons, valueAt_nil]
    · simp [incr, valueAt_cons, valueAt_nil, hjk, Ne.symm hjk]
  | cons a t ih =>
    intro hm j
    obtain ⟨k', v⟩ := a
    obtain ⟨h1, h2⟩ := List.pairwise_cons.mp hm
    rw [incr_cons]
    by_cases hlt : lexLt k.data k'.data = true
    · rw [if_pos hlt]
      by_cases hjk : j = k
      · subst hjk
        rw [valueAt_cons, if_pos rfl, valueAt_eq_zero (head_lt_absent hlt h1), if_pos rfl]
      · rw [valueAt_cons, if_neg (fun hh => hjk hh.symm), if_neg hjk, Nat.add_zero]
    · rw [if_neg hlt]
      by_cases heq : k = k'
      · rw [if_pos heq]
        subst heq
        by_cases hjk : j = k
        · subst hjk
          rw [valueAt_cons, valueAt_cons, if_pos rfl, if_pos rfl, if_pos rfl]
        · rw [valueAt_cons, valueAt_cons, if_neg (fun hh => hjk hh.symm),
            if_neg (fun hh => hjk hh.symm), if_neg hjk, Nat.add_zero]
      · rw [if_neg heq]
        by_cases hjk' : j = k'
        · subst hjk'
          rw [valueAt_cons, valueAt_cons, if_pos rfl, if_pos rfl,
            if_neg (fun hh => heq hh.symm), Nat.add_zero]
        · rw [valueAt_cons, valueAt_cons, if_neg (fun hh => hjk' hh.symm),
            if_neg (fun hh => hjk' hh.symm), ih h2 j]

/-- The map update `incr` keeps every recorded count at least 1. -/
theorem incr_pos (k : String) :
    ∀ {m : List (String × Nat)}, (∀ p ∈ m, 1 ≤ p.2) → ∀ p ∈ incr k m, 1 ≤ p.2 := by
  intro m
  induction m with
  | nil => intro _ p hp; simp [incr] at hp; simp [hp]
  | cons a t ih =>
    intro hm p hp
    obtain ⟨k', v⟩ := a
    rw [incr_cons] at hp
    by_cases hlt : lexLt k.data k'.data = true
    · rw [if_pos hlt] at hp
      rcases List.mem_cons.mp hp with hp | hp
      · rw [hp]
      · exact hm p hp
    · rw [if_neg hlt] at hp
      by_cases heq : k = k'
      · rw [if_pos heq] at hp
        rcases List.mem_cons.mp hp with hp | hp
        · rw [hp]; simp
        · exact hm p (List.mem_cons_of_mem _ hp)
      · rw [if_neg heq] at hp
        rcases List.mem_cons.mp hp with hp | hp
        · exact hp ▸ hm (k', v) (List.mem_cons_self _ _)
        · exact ih (fun q hq => hm q (List.mem_cons_of_mem _ hq)) p hp

theorem applyIncs_cons (i : String) (is : List String) (m : List (String × Nat)) :
    applyIncs (i :: is) m = applyIncs is (incr i m) := rfl

theorem applyIncs_sorted (l : List String) :
    ∀ {m : List (String × Nat)}, SortedF m → SortedF (applyIncs l m) := by
  induction l with
  | nil => intro m hm; exact hm
  | cons i is ih => intro m hm; rw [applyIncs_cons]; exact ih (incr_sorted i hm)

theorem applyIncs_pos (l : List String) :
    ∀ {m : List (String × Nat)}, (∀ p ∈ m, 1 ≤ p.2) →
      ∀ p ∈ applyIncs l m, 1 ≤ p.2 := by
  induction l with
  | nil => intro m hm; exact hm
  | cons i is ih => intro m hm; rw [applyIncs_cons]; exact ih (incr_pos i hm)

/-- Applying a batch of increments adds the batch multiplicity of each key
to its recorded count. -/
theorem valueAt_applyIncs (l : List String) :
    ∀ {m : List (String × Nat)}, SortedF m → ∀ j,
      valueAt (applyIncs l m) j = valueAt m j + l.count j := by
  induction l with
  | nil => intro m _ j; simp [applyIncs]
  | cons i is ih =>
    intro m hm j
    rw [applyIncs_cons, ih (incr_sorted i hm) j, valueAt_incr i hm j, List.count_cons]
    by_cases hji : j = i
    · subst hji; simp; omega
    · have hij : (i == j) = false := by simp [Ne.symm hji]
      simp [hji, hij]

/-- Two sorted findings maps with positive counts and the same recorded
count on every key are equal: folding in any order yields one canonical
map. -/
theorem findings_ext :
    ∀ {m₁ m₂ : List (String × Nat)}, SortedF m₁ → SortedF m₂ →
      (∀ p ∈ m₁, 1 ≤ p.2) → (∀ p ∈ m₂, 1 ≤ p.2) →
      (∀ j, valueAt m₁ j = valueAt m₂ j) → m₁ = m₂ := by
  intro m₁
  induction m₁ with
  | nil =>
    intro m₂ _ _ _ hpos₂ hval
    cases m₂ with
    | nil => rfl
    | cons b t₂ =>
      exfalso
      have hv := hval b.1
      rw [valueAt_nil, valueAt_cons, if_pos rfl] at hv
      have := hpos₂ b (List.mem_cons_self _ _)
      omega
  | cons a t₁ ih =>
    intro m₂ hs₁ hs₂ hpos₁ hpos₂ hval
    obtain ⟨k₁, v₁⟩ := a
    obtain ⟨h11, h12⟩ := List.pairwise_cons.mp hs₁
    cases m₂ with
    | nil =>
      exfalso
      have hv := hval k₁
      rw [valueAt_nil, valueAt_cons, if_pos rfl] at hv
      have := hpos₁ (k₁, v₁) (List.mem_cons_self _ _)
      simp at this
      omega
    | cons b t₂ =>
      obtain ⟨k₂, v₂⟩ := b
      obtain ⟨h21, h22⟩ := List.pairwise_cons.mp hs₂
      by_cases hk : k₁ = k₂
      · subst hk
        have hv := hval k₁
        rw [valueAt_cons, valueAt_cons, if_pos rfl, if_pos rfl] at hv
        subst hv
        have htails : ∀ j, valueAt t₁ j = valueAt t₂ j := by
          intro j
          by_cases hj : j = k₁
          · subst hj
            rw [valueAt_eq_zero (fun p hp => fun hh => key_ne_of_lexLt (h11 p hp) hh.symm),
              valueAt_eq_zero (fun p hp => fun hh => key_ne_of_lexLt (h21 p hp) hh.symm)]
          · have hv := hval j
            rw [valueAt_cons, valueAt_cons, if_neg (fun hh => hj hh.symm),
              if_neg (fun hh => hj hh.symm)] at hv
            exact hv
        rw [ih h12 h22 (fun p hp => hpos₁ p (List.mem_cons_of_mem _ hp))
          (fun p hp => hpos₂ p (List.mem_cons_of_mem _ hp)) htails]
      · exfalso
        by_cases hlt : lexLt k₁.data k₂.data = true
        · have hv := hval k₁
          have hne : k₂ ≠ k₁ := fun hh => hk hh.symm
          rw [valueAt_cons, if_pos rfl,
            valueAt_cons, if_neg hne,
            valueAt_eq_zero (m := t₂) (fun p hp => fun hh =>
              key_ne_of_lexLt (lexLt_trans hlt (h21 p hp)) hh.symm)] at hv
          have := hpos₁ (k₁, v₁) (List.mem_cons_self _ _)
          simp at this
          omega
        · have hlt' : lexLt k₂.data k₁.data = true :=
            lexLt_of_ne hk (by simpa using hlt)
          have hv := hval k₂
          rw [valueAt_cons, if_neg hk,
            valueAt_cons, if_pos rfl,
            valueAt_eq_zero (m := t₁) (fun p hp => fun hh =>
              key_ne_of_lexLt (lexLt_trans hlt' (h11 p hp)) hh.symm)] at hv
          have := hpos₂ (k₂, v₂) (List.mem_cons_self _ _)
          simp at this
          omega

/-! ## The classification fold -/

theorem processItem_findings (cfg : Config) (st : AnalysisState) (it : WorkItem) :
    (processItem cfg st it).findings = applyIncs (itemIncs cfg it) st.findings := by
  obtain ⟨n, r, lg⟩ := it
  cases lg <;> simp [processItem, itemIncs, applyIncs]

theorem processItem_other (cfg : Config) (st : AnalysisState) (it : WorkItem) :
    (processItem cfg st it).other = st.other ++ (unclassifiedOf cfg it).toList := by
  obtain ⟨n, r, lg⟩ := it
  cases lg with
  | none => simp [processItem, unclassifiedOf]
  | some log =>
    by_cases hE : (logIncrements cfg log).isEmpty = true <;>
      simp [processItem, unclassifiedOf, hE]

theorem foldl_findings_sorted (cfg : Config) :
    ∀ (items : List WorkItem) (st : AnalysisState), SortedF st.findings →
      SortedF ((items.foldl (processItem cfg) st).findings) := by
  intro items
  induction items with
  | nil => intro st h; exact h
  | cons it rest ih =>
    intro st h
    rw [List.foldl_cons]
    exact ih _ (by rw [processItem_findings]; exact applyIncs_sorted _ h)

theorem foldl_findings_pos (cfg : Config) :
    ∀ (items : List WorkItem) (st : AnalysisState), (∀ p ∈ st.findings, 1 ≤ p.2) →
      ∀ p ∈ (items.foldl (processItem cfg) st).findings, 1 ≤ p.2 := by
  intro items
  induction items with
  | nil => intro st h; exact h
  | cons it rest ih =>
    intro st h
    rw [List.foldl_cons]
    exact ih _ (by rw [processItem_findings]; exact applyIncs_pos _ h)

theorem foldl_findings_value (cfg : Config) :
    ∀ (items : List WorkItem) (st : AnalysisState), SortedF st.findings → ∀ j,
      valueAt ((items.foldl (processItem cfg) st).findings) j =
        valueAt st.findings j + (items.flatMap (itemIncs cfg)).count j := by
  intro items
  induction items with
  | nil => intro st _ j; simp
  | cons it rest ih =>
    intro st hst j
    rw [List.foldl_cons, List.flatMap_cons, List.count_append,
      ih _ (by rw [processItem_findings]; exact applyIncs_sorted _ hst) j,
      processItem_findings, valueAt_applyIncs _ hst j]
    omega

theorem foldl_other (cfg : Config) :
    ∀ (items : List WorkItem) (st : AnalysisState),
      (items.foldl (processItem cfg) st).other =
        st.other ++ items.filterMap (unclassifiedOf cfg) := by
  intro items
  induction items with
  | nil => intro st; simp
  | cons it rest ih =>
    intro st
    rw [List.foldl_cons, ih, processItem_other]
    cases h : unclassifiedOf cfg it <;> simp [h, List.filterMap_cons]

theorem processItems_findings_sorted (cfg : Config) (items : List WorkItem) :
    SortedF ((processItems cfg items).findings) :=
  foldl_findings_sorted cfg items _ sortedF_nil

theorem processItems_findings_pos (cfg : Config) (items : List WorkItem) :
    ∀ p ∈ (processItems cfg items).findings, 1 ≤ p.2 :=
  foldl_findings_pos cfg items _ (by intro p hp; simp at hp)

theorem processItems_value (cfg : Config) (items : List WorkItem) (j : String) :
    valueAt ((processItems cfg items).findings) j = (items.flatMap (itemIncs cfg)).count j := by
  rw [processItems, foldl_findings_value cfg items _ sortedF_nil j]
  simp [valueAt, findingsLookup]

theorem processItems_other (cfg : Config) (items : List WorkItem) :
    (processItems cfg items).other = items.filterMap (unclassifiedOf cfg) := by
  rw [processItems, foldl_other]
  rfl

/-! ## Grouping the unclassified pushes -/

theorem totalEntries_insertAppend (k v : String) :
    ∀ g : List (String × List String),
      totalEntries (insertAppend k v g) = totalEntries g + 1 := by
  intro g
  induction g with
  | nil => simp [insertAppend, totalEntries]
  | cons a rest ih =>
    obtain ⟨k', vs⟩ := a
    show totalEntries
        (if lexLt k.data k'.data then (k, [v]) :: (k', vs) :: rest
         else if k = k' then (k', vs ++ [v]) :: rest
         else (k', vs) :: insertAppend k v rest) = _
    by_cases hlt : lexLt k.data k'.data = true
    · rw [if_pos hlt]
      simp [totalEntries]
      omega
    · rw [if_neg hlt]
      by_cases heq : k = k'
      · rw [if_pos heq]
        simp [totalEntries]
        omega
      · rw [if_neg heq]
        simp only [totalEntries, List.map_cons, List.sum_cons] at ih ⊢
        omega

theorem totalEntries_groupOther (l : List (String × String)) :
    totalEntries (groupOther l) = l.length := by
  suffices h : ∀ (l : List (String × String)) (acc : List (String × List String)),
      totalEntries (l.foldl (fun acc p => insertAppend p.1 p.2 acc) acc) =
        totalEntries acc + l.length by
    have := h l []
    simpa [groupOther, totalEntries] using this
  intro l
  induction l with
  | nil => intro acc; simp
  | cons p rest ih =>
    intro acc
    rw [List.foldl_cons, ih, totalEntries_insertAppend]
    simp
    omega

theorem insertAppend_nonempty (k v : String) :
    ∀ g : List (String × List String), (∀ p ∈ g, p.2 ≠ []) →
      ∀ p ∈ insertAppend k v g, p.2 ≠ [] := by
  intro g
  induction g with
  | nil => intro _ p hp; simp [insertAppend] at hp; simp [hp]
  | cons a rest ih =>
    intro hg p hp
    obtain ⟨k', vs⟩ := a
    by_cases hlt : lexLt k.data k'.data = true
    · rw [insertAppend, if_pos hlt] at hp
      rcases List.mem_cons.mp hp with hp | hp
      · rw [hp]; simp
      · exact hg p hp
    · rw [insertAppend, if_neg hlt] at hp
      by_cases heq : k = k'
      · rw [if_pos heq] at hp
        rcases List.mem_cons.mp hp with hp | hp
        · rw [hp]; simp
        · exact hg p (List.mem_cons_of_mem _ hp)
      · rw [if_neg heq] at hp
        rcases List.mem_cons.mp hp with hp | hp
        · exact hp ▸ hg (k', vs) (List.mem_cons_self _ _)
        · exact ih (fun q hq => hg q (List.mem_cons_of_mem _ hq)) p hp

theorem groupOther_nonempty (l : List (String × String)) :
    ∀ p ∈ groupOther l, p.2 ≠ [] := by
  suffices h : ∀ (l : List (String × String)) (acc : List (String × List String)),
      (∀ p ∈ acc, p.2 ≠ []) →
      ∀ p ∈ l.foldl (fun acc p => insertAppend p.1 p.2 acc) acc, p.2 ≠ [] by
    exact h l [] (by intro p hp; simp at hp)
  intro l
  induction l with
  | nil => intro acc h; exact h
  | cons q rest ih =>
    intro acc h
    rw [List.foldl_cons]
    exact ih _ (insertAppend_nonempty q.1 q.2 acc h)

/-! ## The partition equation for successful fetches -/

theorem length_filterMap_unclassified (cfg : Config) :
    ∀ items : List WorkItem,
      (items.filterMap (unclassifiedOf cfg)).length + withFindingCount cfg items =
        successCount items := by
  intro items
  induction items with
  | nil => rfl
  | cons it rest ih =>
    obtain ⟨n, r, lg⟩ := it
    simp only [successCount, withFindingCount, List.countP_cons,
      List.filterMap_cons] at ih ⊢
    cases lg with
    | none => simpa [unclassifiedOf] using ih
    | some log =>
      by_cases hE : (logIncrements cfg log).isEmpty = true
      · simp [unclassifiedOf, hE]
        omega
      · simp only [Bool.not_eq_true] at hE
        simp [unclassifiedOf, hE]
        omega

/-! ## Line splitting and substring search -/

theorem linesAux_no_nl : ∀ (s acc : List Char), '\n' ∉ s →
    linesAux s acc = if s = [] ∧ acc = [] then [] else [acc.reverse ++ s] := by
  intro s
  induction s with
  | nil => intro acc _; cases acc <;> simp [linesAux]
  | cons c s' ih =>
    intro acc h
    have hc : c ≠ '\n' := fun hh => h (hh ▸ List.mem_cons_self c s')
    have h' : '\n' ∉ s' := fun hh => h (List.mem_cons_of_mem _ hh)
    rw [show linesAux (c :: s') acc
        = if c = '\n' then finishLine acc :: linesAux s' [] else linesAux s' (c :: acc) from rfl,
      if_neg hc, ih (c :: acc) h']
    simp

/-- A newline-free nonempty log is a single line. -/
theorem rustLines_single (s : List Char) (h : '\n' ∉ s) (hne : s ≠ []) :
    rustLines s = [s] := by
  rw [rustLines, linesAux_no_nl s [] h]
  simp [hne]

theorem linesAux_append : ∀ (s t acc : List Char), '\n' ∉ s →
    linesAux (s ++ '\n' :: t) acc = finishLine (s.reverse ++ acc) :: linesAux t [] := by
  intro s
  induction s with
  | nil => intro t acc _; simp [linesAux]
  | cons c s' ih =>
    intro t acc h
    have hc : c ≠ '\n' := fun hh => h (hh ▸ List.mem_cons_self c s')
    have h' : '\n' ∉ s' := fun hh => h (List.mem_cons_of_mem _ hh)
    rw [List.cons_append,
      show linesAux (c :: (s' ++ '\n' :: t)) acc
        = if c = '\n' then finishLine acc :: linesAux (s' ++ '\n' :: t) []
          else linesAux (s' ++ '\n' :: t) (c :: acc) from rfl,
      if_neg hc, ih t (c :: acc) h']
    simp

/-- A log made of the same newline-free line twice splits into the
carriage-return-trimmed first copy and the raw second copy. -/
theorem rustLines_pair (line : List Char) (h : '\n' ∉ line) (hne : line ≠ []) :
    rustLines (line ++ '\n' :: line) = [finishLine line.reverse, line] := by
  rw [rustLines, linesAux_append line line [] h, linesAux_no_nl line [] h]
  simp [hne]

/-- The trim `finishLine` only ever removes a carriage return, so membership of any
other character is preserved (up to the reversal). -/
theorem mem_finishLine {c : Char} (hc : c ≠ '\r') :
    ∀ acc : List Char, c ∈ finishLine acc ↔ c ∈ acc := by
  intro acc
  cases acc with
  | nil => simp [finishLine]
  | cons a rest =>
    by_cases ha : a = '\r'
    · subst ha
      simp [finishLine, List.mem_reverse, hc]
    · simp [finishLine, ha, List.mem_reverse, or_comm]

/-- A single-character pattern occurs as a substring iff it occurs as an
element. -/
theorem hasSub_singleton (a : Char) : ∀ l : List Char, hasSub [a] l = true ↔ a ∈ l := by
  intro l
  induction l with
  | nil => simp [hasSub]
  | cons c rest ih =>
    have hpre : ([a].isPrefixOf (c :: rest)) = (a == c) := by
      simp [List.isPrefixOf]
    rw [show hasSub [a] (c :: rest) = (([a].isPrefixOf (c :: rest)) || hasSub [a] rest) from rfl,
      hpre, Bool.or_eq_true, ih]
    simp [List.mem_cons]

/-! ## The error-code regex -/

/-- Every capture of the error regex starts with the literal `E`. -/
theorem lineErrorCapture_shape :
    ∀ {seg c : List Char}, lineErrorCapture seg = some c → ∃ ds, c = 'E' :: ds := by
  intro seg c h
  unfold lineErrorCapture at h
  repeat' split at h
  all_goals first
    | exact ⟨_, (Option.some.inj h).symm⟩
    | exact absurd h (by simp)

/-- The regex contributes nothing to a finding name that does not start
with `E`. -/
theorem regexIncrements_count_zero (log : List Char) (s : String)
    (hs : s.data.head? ≠ some 'E') : (regexIncrements log).count s = 0 := by
  rw [List.count_eq_zero]
  intro hmem
  rw [regexIncrements] at hmem
  obtain ⟨seg, _, hcap⟩ := List.mem_filterMap.mp hmem
  obtain ⟨c, hc, hcs⟩ := Option.map_eq_some'.mp hcap
  obtain ⟨ds, hds⟩ := lineErrorCapture_shape hc
  apply hs
  rw [← hcs, hds]
  rfl

/-- The regex's multiplicity for a captured value is the number of lines
(newline-separated segments) on which the pattern matches with that
capture. -/
theorem count_regexIncrements (log c : List Char) :
    (regexIncrements log).count (String.mk c) =
      (splitNl log).countP (fun seg => lineErrorCapture seg == some c) := by
  rw [regexIncrements]
  induction splitNl log with
  | nil => rfl
  | cons seg segs ih =>
    rw [List.filterMap_cons, List.countP_cons]
    cases hcap : lineErrorCapture seg with
    | none => simp [hcap, ih]
    | some d =>
      simp only [Option.map_some', List.count_cons, ih]
      by_cases hdc : d = c
      · subst hdc; simp
      · have h1 : (String.mk d == String.mk c) = false := by
          refine beq_eq_false_iff_ne.mpr (fun hh => hdc ?_)
          simpa [String.ext_iff] using hh
        have h2 : ((some d : Option (List Char)) == some c) = false := by
          simp [hdc]
        simp [h1, h2]

/-! # Claim theorems -/

/-- Claim C5: for every loaded manifest, `eligibleRunCount`
(`interesting_results_count`) equals the sum, over units whose outcome
equals the expected unit outcome, of the number of that unit's non-absent
runs whose outcome equals the expected run outcome; the right-hand side
does not mention the fetch outcomes, so the count is fixed before any log
fetch begins. -/
theorem c5_eligible_run_count (cfg : Config) (e : String) (report : Results)
    (fetch : String → Option (List Char)) :
    (runAnalysisPure cfg e report fetch).interesting_results_count =
      ((report.crates.filter (fun k => k.res == cfg.crate_result)).map
        (fun k => (k.runs.reduceOption.filter
          (fun run => run.res == cfg.run_result)).length)).sum := by
  show (interestingRuns cfg report).length = _
  rw [interestingRuns]
  induction report.crates.filter (fun k => k.res == cfg.crate_result) with
  | nil => rfl
  | cons k t ih =>
    rw [List.flatMap_cons, List.filter_append, List.length_append, ih,
      List.map_cons, List.sum_cons]
    congr 1
    rw [List.filter_map, List.length_map]
    rfl

/-- Claim C6: `regressedUnitCount` (`regressed_count`) equals the number
of units whose outcome string equals the configured expected unit outcome,
independently of the units' runs (replacing every unit's run list leaves
the count unchanged). -/
theorem c6_regressed_unit_count (cfg : Config) (e : String) (report : Results)
    (fetch : String → Option (List Char)) (f : CrateResult → List (Option RunResult)) :
    (runAnalysisPure cfg e ⟨report.crates.map (fun k => { k with runs := f k })⟩
        fetch).regressed_count
      = report.crates.countP (fun k => k.res == cfg.crate_result) := by
  show regressedCount cfg ⟨report.crates.map (fun k => { k with runs := f k })⟩ = _
  rw [regressedCount, List.filter_map, List.length_map, ← List.countP_eq_length_filter]
  rfl

/-- Claim C7: for a fixed set of fetch outcomes, the final findings map is
the same for every completion order of the work-list items: the
fold of counter increments is commutative and associative, so any
permutation of the work list yields the identical map. -/
theorem c7_completion_order_independent (cfg : Config) (report : Results)
    (fetch : String → Option (List Char)) (order : List WorkItem)
    (h : order.Perm (workItems cfg report fetch)) :
    (processItems cfg order).findings =
      (processItems cfg (workItems cfg report fetch)).findings := by
  apply findings_ext (processItems_findings_sorted cfg order)
    (processItems_findings_sorted cfg _)
    (processItems_findings_pos cfg order)
    (processItems_findings_pos cfg _)
  intro j
  rw [processItems_value, processItems_value, List.count_flatMap, List.count_flatMap]
  exact (h.map (List.count j ∘ itemIncs cfg)).sum_eq

/-- Witness for C7: processing the two-item work list of `reportTwo` in
reverse completion order yields the same findings map. -/
theorem c7_witness :
    (workItems cfgNS reportTwo fetchTwo).reverse.Perm (workItems cfgNS reportTwo fetchTwo) ∧
    (processItems cfgNS (workItems cfgNS reportTwo fetchTwo).reverse).findings =
      (processItems cfgNS (workItems cfgNS reportTwo fetchTwo)).findings :=
  ⟨by decide, c7_completion_order_independent cfgNS reportTwo fetchTwo _ (by decide)⟩

/-- Claim C1 (amended): every run of the work list whose log fetch
SUCCEEDS lands in exactly one of the two buckets — its unclassified entry
exists iff it produced no increment — and
`unclassified.totalEntries() + #(successfully fetched runs with ≥ 1
finding)` equals the number of successfully fetched eligible runs; runs
whose fetch fails land in neither bucket while still being counted in
`eligibleRunCount` (the original claim's equation with `eligibleRunCount`
on the right-hand side fails for them, see the counterexample). -/
theorem c1_partition_amended (cfg : Config) (report : Results)
    (fetch : String → Option (List Char)) :
    totalEntries (groupOther (processItems cfg (workItems cfg report fetch)).other)
        + withFindingCount cfg (workItems cfg report fetch)
      = successCount (workItems cfg report fetch) ∧
    (processItems cfg (workItems cfg report fetch)).other
      = (workItems cfg report fetch).filterMap (unclassifiedOf cfg) ∧
    (workItems cfg report fetch).length = (interestingRuns cfg report).length := by
  refine ⟨?_, processItems_other cfg _, by simp [workItems]⟩
  rw [processItems_other, totalEntries_groupOther]
  exact length_filterMap_unclassified cfg _

/-- Counterexample to C1 as stated: one eligible run whose log fetch
fails contributes to neither findings nor unclassified, so
`unclassified.totalEntries() + #(runs with ≥ 1 finding)` is 0 while
`eligibleRunCount` is 1. -/
theorem c1_counterexample :
    ¬ (totalEntries (groupOther
          (processItems cfgNS (workItems cfgNS reportOne (fun _ => none))).other)
        + withFindingCount cfgNS (workItems cfgNS reportOne (fun _ => none))
      = (interestingRuns cfgNS reportOne).length) := by decide

/-- Claim C2 (amended): the regex mechanism increments the finding named
after a captured value once per non-overlapping match (equivalently, once
per newline-separated segment on which the pattern matches with that
capture) — so a value captured by k matches is incremented k times, not
once. -/
theorem c2_regex_count_amended (log c : List Char) :
    valueAt (applyIncs (regexIncrements log) []) (String.mk c) =
      (splitNl log).countP (fun seg => lineErrorCapture seg == some c) := by
  rw [valueAt_applyIncs _ sortedF_nil, valueAt_nil, Nat.zero_add, count_regexIncrements]

/-- Counterexample to C2 as stated: a log with two lines both capturing
`E0308` drives that finding to 2, not 1. -/
theorem c2_counterexample :
    findingsLookup (runAnalysisPure cfgEmpty "exp" reportOne
        (fun _ => some logTwice)).findings "E0308" = some 2 ∧
    findingsLookup (runAnalysisPure cfgEmpty "exp" reportOne
        (fun _ => some logTwice)).findings "E0308" ≠ some 1 := by decide

/-- Claim C3 (refuted, code bug): the sanitized cache path for the log
reference `"abc."` is the ABSOLUTE path `/dot/results/e/logs/abc/dot/log.txt`
(the sanitizer rewrites the leading `./` of the cache prefix into `/dot/`,
escaping the `./results` cache layout), and for a reference not ending in
`'.'` (here `"x"`) no sanitization happens at all and the path retains a
literal `./`. -/
theorem c3_sanitization_bug :
    getLogPath "e" "abc." = ("/dot/results/e/logs/abc/dot/log.txt").data ∧
    (getLogPath "e" "abc.").head? = some '/' ∧
    hasDotSlash (getLogPath "e" "x") = true := by decide

/-- Helper: the findings of the one-run analysis are exactly the single
log's increments applied to the empty map. -/
theorem runAnalysisPure_AB (log : List Char) :
    (runAnalysisPure cfgAB "exp" reportOne (fun _ => some log)).findings =
      applyIncs (logIncrements cfgAB log) [] := rfl

/-- Helper: a line containing both fragments `A` and `B` contributes
exactly one increment of `"frag-sig"` under `cfgAB`. -/
theorem lineIncrements_AB (ℓ : List Char) (hA : 'A' ∈ ℓ) (hB : 'B' ∈ ℓ) :
    lineIncrements cfgAB ℓ = ["frag-sig"] := by
  have hA' : hasSub ['A'] ℓ = true := (hasSub_singleton 'A' ℓ).mpr hA
  have hB' : hasSub ['B'] ℓ = true := (hasSub_singleton 'B' ℓ).mpr hB
  simp [lineIncrements, cfgAB, hA', hB']

/-- Claim C4: with the signature `["A", "B"]` under the name
`"frag-sig"`, a log that is one line containing both fragments increments
that finding by exactly 1, and the log consisting of that line twice (two
matching physical lines) increments it by exactly 2. -/
theorem c4_and_fragment_counts (line : List Char) (hA : 'A' ∈ line) (hB : 'B' ∈ line)
    (hn : '\n' ∉ line) :
    valueAt (runAnalysisPure cfgAB "exp" reportOne
        (fun _ => some line)).findings "frag-sig" = 1 ∧
    valueAt (runAnalysisPure cfgAB "exp" reportOne
        (fun _ => some (line ++ '\n' :: line))).findings "frag-sig" = 2 := by
  have hne : line ≠ [] := by rintro rfl; simp at hA
  have hreg : ∀ lg, (regexIncrements lg).count "frag-sig" = 0 := fun lg =>
    regexIncrements_count_zero lg "frag-sig" (by decide)
  constructor
  · rw [runAnalysisPure_AB, valueAt_applyIncs _ sortedF_nil, valueAt_nil, Nat.zero_add,
      logIncrements, List.count_append, hreg, Nat.add_zero, rustLines_single line hn hne]
    simp [List.flatMap_cons, lineIncrements_AB line hA hB, List.count_cons]
  · have hA2 : 'A' ∈ finishLine line.reverse :=
      (mem_finishLine (by decide) _).mpr (List.mem_reverse.mpr hA)
    have hB2 : 'B' ∈ finishLine line.reverse :=
      (mem_finishLine (by decide) _).mpr (List.mem_reverse.mpr hB)
    rw [runAnalysisPure_AB, valueAt_applyIncs _ sortedF_nil, valueAt_nil, Nat.zero_add,
      logIncrements, List.count_append, hreg, Nat.add_zero, rustLines_pair line hn hne]
    simp [List.flatMap_cons, lineIncrements_AB _ hA2 hB2, lineIncrements_AB line hA hB,
      List.count_append, List.count_cons]

/-- Witness for C4 at the concrete line `xAyB`. -/
theorem c4_witness :
    ('A' ∈ ("xAyB").data ∧ 'B' ∈ ("xAyB").data ∧ '\n' ∉ ("xAyB").data) ∧
    valueAt (runAnalysisPure cfgAB "exp" reportOne
        (fun _ => some (("xAyB").data))).findings "frag-sig" = 1 :=
  ⟨⟨by decide, by decide, by decide⟩,
    (c4_and_fragment_counts ("xAyB").data (by decide) (by decide) (by decide)).1⟩

/-- Claim C8: the content fetcher returns cached bytes without a network
call when the cache read succeeds; when the cache read fails it returns
the network body on success; it propagates a transport error exactly when
both the cache read and the network GET fail; and the result is
independent of whether persisting the downloaded body succeeds. -/
theorem c8_fetch_contract (cache network : Except Unit (List Char)) (p p' : Bool) :
    (∀ c, cache = Except.ok c → getOrDownloadFile cache network p = (Except.ok c, false)) ∧
    (∀ body, cache.isOk = false → network = Except.ok body →
      getOrDownloadFile cache network p = (Except.ok body, true)) ∧
    ((getOrDownloadFile cache network p).1.isOk = false ↔
      cache.isOk = false ∧ network.isOk = false) ∧
    getOrDownloadFile cache network p = getOrDownloadFile cache network p' := by
  cases cache <;> cases network <;> simp [getOrDownloadFile, Except.isOk, Except.toBool]

/-- Witness for C8: a cache hit is returned unchanged with no network
call even when persistence would fail. -/
theorem c8_witness :
    ((Except.ok (("c").data) : Except Unit (List Char)) = Except.ok (("c").data)) ∧
    getOrDownloadFile (Except.ok (("c").data)) (Except.error ()) true
      = (Except.ok (("c").data), false) :=
  ⟨rfl, (c8_fetch_contract (Except.ok (("c").data)) (Except.error ()) true true).1
    (("c").data) rfl⟩

/-- Claim C9: a missing configuration file makes the program write the
default configuration generated from the built-in signature table and fail
with the distinct `MissingConfig` error; a present but malformed file
fails immediately with the TOML error and writes nothing; a parsable file
is loaded. -/
theorem c9_config_bootstrap (parseToml : String → Option Config) :
    mainConfigStep ReadOutcome.notFound parseToml
        = (Except.error AnalysisErrKind.missingConfig, some configExample) ∧
    (∀ s, parseToml s = none →
      mainConfigStep (ReadOutcome.found s) parseToml
        = (Except.error AnalysisErrKind.tomlDe, none)) ∧
    (∀ s c, parseToml s = some c →
      mainConfigStep (ReadOutcome.found s) parseToml = (Except.ok c, none)) ∧
    AnalysisErrKind.missingConfig ≠ AnalysisErrKind.tomlDe := by
  refine ⟨rfl, ?_, ?_, by decide⟩
  · intro s h; simp [mainConfigStep, h]
  · intro s c h; simp [mainConfigStep, h]

/-- Witness for C9 with a parser that rejects everything. -/
theorem c9_witness :
    ((fun _ : String => (none : Option Config)) "x" = none) ∧
    mainConfigStep (ReadOutcome.found "x") (fun _ => none)
      = (Except.error AnalysisErrKind.tomlDe, none) :=
  ⟨rfl, (c9_config_bootstrap (fun _ => none)).2.1 "x" rfl⟩

/-- Claim C10: in every analysis report, the findings map has no zero
counts and every unit name present in the unclassified map has a
non-empty list of log references. -/
theorem c10_report_invariants (cfg : Config) (e : String) (report : Results)
    (fetch : String → Option (List Char)) (k : String) :
    (∀ v, (k, v) ∈ (runAnalysisPure cfg e report fetch).findings → 1 ≤ v) ∧
    (∀ vs, (k, vs) ∈ (runAnalysisPure cfg e report fetch).other → vs ≠ []) := by
  constructor
  · intro v hv
    exact processItems_findings_pos cfg _ (k, v) hv
  · intro vs hvs
    exact groupOther_nonempty _ (k, vs) hvs

/-- Witness for C10: a matched log yields the entry `("no-space", 1)` and
an unmatched log the unclassified entry `("bar", ["zzz"])`. -/
theorem c10_witness :
    (("no-space", 1) ∈ (runAnalysisPure cfgNS "exp" reportTwo fetchTwo).findings ∧
      (1 : Nat) ≤ 1) ∧
    (("bar", ["zzz"]) ∈ (runAnalysisPure cfgNS "exp" reportTwo fetchTwo).other ∧
      (["zzz"] : List String) ≠ []) :=
  ⟨⟨by decide, (c10_report_invariants cfgNS "exp" reportTwo fetchTwo "no-space").1 1 (by decide)⟩,
   ⟨by decide, (c10_report_invariants cfgNS "exp" reportTwo fetchTwo "bar").2 ["zzz"] (by decide)⟩⟩

end CraterAnalysis
